import Mathlib

/-!
Shallow embedding of the resumable concurrent fetch-and-persist pipeline
implemented by `PaperDetailsUpdater` in `src/paper_details_updater.py`.

The embedding is sequential: one run is modelled as a deterministic fold of
the worker-loop body over the dispatched queue.  Network fetches and
extraction are modelled by oracles (`Paper → Option Detail` at run level,
`Nat → Option α` per attempt inside `fetchWithRetry`), and the filesystem by
a two-file state (results file and its `.bak` backup).
-/

namespace PaperPipeline

/-- One manifest record (`paper` dict in `load_papers_data`): its `url` field
(`paper.get("url")`, absent modelled as `none`) plus an opaque payload
standing for the remaining fields. -/
structure Paper where
  url : Option String
  payload : Nat
deriving DecidableEq

/-- Opaque extracted record (`fetch_paper_details` result on success). -/
abbrev Detail := Nat

/-- `self.paper_details`: mapping url → detail, as an association list whose
keys are pairwise distinct along any run (only absent keys are inserted). -/
abbrev Store := List (String × Detail)

/-- Python `url in self.paper_details` (dict key membership). -/
def Store.containsKey (s : Store) (k : String) : Bool :=
  s.any (fun e => e.1 == k)

/-- Python truthiness of `paper.get("url")`: `None` and `""` are falsy. -/
def urlTruthy : Option String → Bool
  | none => false
  | some u => !(u == "")

/-- The url string of a paper (meaningful only when `urlTruthy p.url`). -/
def urlKey (p : Paper) : String := p.url.getD ""

/-- The parsed input manifest: a JSON object mapping page keys to lists of
records, as an association list. -/
abbrev Manifest := List (String × List Paper)

/-- Python `papers_data.get(page_key)` / `page_key in papers_data`. -/
def lookupPage (m : Manifest) (k : String) : Option (List Paper) :=
  (m.find? (fun e => e.1 == k)).map (fun e => e.2)

/-- The key `f"page_{page_num}"`. -/
def pageKey (n : Nat) : String := "page_" ++ toString n

/-- The `while f"page_{page_num}" in papers_data` loop of `load_papers_data`:
concatenate pages `page_n, page_(n+1), ...` and stop at the first absent
page key.  `fuel` bounds the recursion; with `fuel = m.length + 1` it never
runs out, because a manifest with `m.length` entries cannot contain
`m.length + 1` consecutive present page keys. -/
def enumPagesFrom (m : Manifest) : Nat → Nat → List Paper
  | 0, _ => []
  | fuel + 1, n =>
    match lookupPage m (pageKey n) with
    | none => []
    | some ps => ps ++ enumPagesFrom m fuel (n + 1)

/-- All records the dispatcher ever sees, starting from `page_1`. -/
def enumPapers (m : Manifest) : List Paper :=
  enumPagesFrom m (m.length + 1) 1

/-- Dispatcher result: the work queue, `total_papers` (count of enqueued
records), and `skipped_count`. -/
structure DState where
  queue : List Paper
  total : Nat
  skippedCount : Nat
deriving DecidableEq

/-- The per-record body of `load_papers_data`'s loop:
`if url and url not in self.paper_details: enqueue; elif url: skipped += 1`,
folded over the enumerated records (queue keeps manifest order). -/
def dispatchList (store : Store) : List Paper → DState
  | [] => ⟨[], 0, 0⟩
  | p :: ps =>
    let d := dispatchList store ps
    if urlTruthy p.url then
      if store.containsKey (urlKey p) then ⟨d.queue, d.total, d.skippedCount + 1⟩
      else ⟨p :: d.queue, d.total + 1, d.skippedCount⟩
    else d

/-- Content of one file on disk: absent, a well-formed results document
(which is exactly a persisted `Store`), or bytes that `json.load` rejects
(truncated / partially written / otherwise corrupt). -/
inductive FileState where
  | absent
  | good (s : Store)
  | corrupt
deriving DecidableEq

/-- The observable filesystem: the durable results file (`output_file`) and
its backup (`output_file + ".bak"`). -/
structure FS where
  out : FileState
  bak : FileState
deriving DecidableEq

/-- `load_existing_details`: if the results file exists and parses, it
becomes the in-memory store; a parse failure or an absent file yields the
empty store (the run continues either way). -/
def loadExistingDetails (fs : FS) : Store :=
  match fs.out with
  | FileState.good s => s
  | _ => []

/-- `save_details`: copy the current results file to the backup (when it
exists), then rewrite the results file in place with the snapshot. -/
def saveDetails (fs : FS) (snapshot : Store) : FS :=
  ⟨FileState.good snapshot,
   match fs.out with
   | FileState.absent => fs.bak
   | o => o⟩

/-- The observable filesystem states during `save_details`, in order:
initial; after `shutil.copy2(output_file, backup_file)`; after
`open(output_file, "w")` has truncated the file while `json.dump` is still
writing (the durable file holds a partial document); after the dump
completes. -/
def saveDetailsStates (fs : FS) (snapshot : Store) : List FS :=
  let fs1 : FS :=
    match fs.out with
    | FileState.absent => fs
    | o => ⟨o, o⟩
  let fs2 : FS := ⟨FileState.corrupt, fs1.bak⟩
  let fs3 : FS := ⟨FileState.good snapshot, fs1.bak⟩
  [fs, fs1, fs2, fs3]

/-- One observable effect of a worker-loop iteration: a call to
`fetch_paper_details` for a url (with its success bit), or the silent
drop of a record whose url is falsy or already present in the store.
Every event corresponds to exactly one `task_done`. -/
inductive Event where
  | fetched (u : String) (ok : Bool)
  | dropped (p : Paper)
deriving DecidableEq

/-- State accumulated by the worker loop over a queue: the store, the
`processed_count` and `failed_count` deltas, and the event log in queue
order. -/
structure WState where
  store : Store
  processed : Nat
  failed : Nat
  events : List Event
deriving DecidableEq

/-- The worker loop body of `worker`, folded sequentially over the queue:
`if url and url not in self.paper_details:` fetch, then on success merge
under the lock and bump `processed_count`, on failure bump `failed_count`;
otherwise fall through to `task_done`. -/
def processQueue (fetch : Paper → Option Detail) :
    List Paper → Store → WState
  | [], store => ⟨store, 0, 0, []⟩
  | p :: ps, store =>
    if urlTruthy p.url && !(store.containsKey (urlKey p)) then
      match fetch p with
      | some d =>
        let w := processQueue fetch ps ((urlKey p, d) :: store)
        ⟨w.store, w.processed + 1, w.failed, Event.fetched (urlKey p) true :: w.events⟩
      | none =>
        let w := processQueue fetch ps store
        ⟨w.store, w.processed, w.failed + 1, Event.fetched (urlKey p) false :: w.events⟩
    else
      let w := processQueue fetch ps store
      ⟨w.store, w.processed, w.failed, Event.dropped p :: w.events⟩

/-- Result of one `run`: final store, the four run counters, the worker
event log, the final filesystem, and whether worker threads were started. -/
structure RunResult where
  store : Store
  processed : Nat
  skipped : Nat
  failed : Nat
  totalPapers : Nat
  events : List Event
  fs : FS
  workersStarted : Bool
deriving DecidableEq

/-- `PaperDetailsUpdater.run`: load the existing store; parse the manifest
(`none` models an unreadable or unparseable input file, on which
`load_papers_data` returns `False` and `run` exits before starting any
worker); dispatch; exit early when nothing was enqueued; otherwise process
the queue — all of it, or a prefix when a `KeyboardInterrupt` arrives after
`interrupt = some j` items — and in both cases finish with `save_details`. -/
def run (manifest : Option Manifest) (fetch : Paper → Option Detail)
    (fs0 : FS) (interrupt : Option Nat) : RunResult :=
  let store0 := loadExistingDetails fs0
  match manifest with
  | none => ⟨store0, 0, 0, 0, 0, [], fs0, false⟩
  | some m =>
    let d := dispatchList store0 (enumPapers m)
    if d.total = 0 then
      ⟨store0, 0, d.skippedCount, 0, 0, [], fs0, false⟩
    else
      let toProcess :=
        match interrupt with
        | none => d.queue
        | some j => d.queue.take j
      let w := processQueue fetch toProcess store0
      ⟨w.store, w.processed, d.skippedCount, w.failed, d.total, w.events,
       saveDetails fs0 w.store, true⟩

/-- Number of records the manifest offers to the dispatcher: enumerated
records carrying a (truthy) url key. -/
def offeredCount (m : Manifest) : Nat :=
  ((enumPapers m).filter (fun p => urlTruthy p.url)).length

/-- `fetch_with_retry`'s loop, with one oracle call per attempt
(`att i` is the outcome of attempt `i`, `none` = `requests.RequestException`)
and the backoff sleeps recorded in seconds (`2 ** retries + jitter`, the
jitter being `random.uniform(0, 1)` modelled as an arbitrary sequence).
`fuel` bounds the recursion; the top entry point supplies `maxRetries + 1`,
which the loop never exhausts. -/
def fetchWithRetryGo (att : Nat → Option α) (jitter : Nat → ℚ)
    (maxRetries : Nat) : Nat → Nat → Option α × Nat × List ℚ
  | 0, _ => (none, 0, [])
  | fuel + 1, retries =>
    match att retries with
    | some v => (some v, 1, [])
    | none =>
      if maxRetries < retries + 1 then (none, 1, [])
      else
        let r := fetchWithRetryGo att jitter maxRetries fuel (retries + 1)
        (r.1, r.2.1 + 1, ((2 : ℚ) ^ (retries + 1) + jitter (retries + 1)) :: r.2.2)

/-- `fetch_with_retry(url, max_retries)`: the result (`none` after
exhaustion), the number of fetch attempts performed, and the list of
inter-attempt sleeps. -/
def fetchWithRetry (att : Nat → Option α) (jitter : Nat → ℚ)
    (maxRetries : Nat) : Option α × Nat × List ℚ :=
  fetchWithRetryGo att jitter maxRetries (maxRetries + 1) 0

/-- Event filter: a `fetch_paper_details` call for url `k`. -/
def isFetchOf (k : String) : Event → Bool
  | Event.fetched u _ => u == k
  | _ => false

/-- Event filter: a failed fetch (the worker bumps `failed_count`). -/
def isFailure : Event → Bool
  | Event.fetched _ ok => !ok
  | _ => false

/-- Phase of one worker-loop iteration handling a single dequeued record:
about to run the membership re-check (`url and url not in
self.paper_details`, read without holding `self.lock`), about to merge
under the lock after a successful fetch, or finished with its record. -/
inductive WPhase where
  | toCheck (p : Paper)
  | toMerge (p : Paper) (d : Detail)
  | idle
deriving DecidableEq

/-- Shared state of the concurrent worker pool: the store and counters
(mutated under `self.lock`), the log of merged keys in merge order, and
the phase of each worker-loop iteration. -/
structure ConcState where
  store : Store
  processed : Nat
  failed : Nat
  mergeLog : List String
  workers : List WPhase
deriving DecidableEq

/-- One atomic step of iteration `i`, ordered exactly as the worker body:
first the unlocked membership re-check together with the fetch outcome,
then — as a separate step, so other workers may merge in between — the
locked merge `self.paper_details[url] = detail; processed_count += 1`
(a dict assignment that overwrites). Out-of-range indices and finished
iterations do nothing. -/
def wstep (fetch : Paper → Option Detail) (st : ConcState) (i : Nat) :
    ConcState :=
  match st.workers.get? i with
  | none => st
  | some WPhase.idle => st
  | some (WPhase.toCheck p) =>
    if urlTruthy p.url && !(st.store.containsKey (urlKey p)) then
      match fetch p with
      | some d => { st with workers := st.workers.set i (WPhase.toMerge p d) }
      | none =>
        { st with failed := st.failed + 1,
                  workers := st.workers.set i WPhase.idle }
    else
      { st with workers := st.workers.set i WPhase.idle }
  | some (WPhase.toMerge p d) =>
    { st with store := (urlKey p, d) :: st.store,
              processed := st.processed + 1,
              mergeLog := urlKey p :: st.mergeLog,
              workers := st.workers.set i WPhase.idle }

/-- Run a schedule: at each tick the named worker iteration performs its
next atomic step. -/
def execSchedule (fetch : Paper → Option Detail) (sched : List Nat)
    (st : ConcState) : ConcState :=
  sched.foldl (wstep fetch) st

/-- Pool start state: the loaded store and one iteration per dequeued
record, each about to run its re-check. -/
def initConc (s0 : Store) (q : List Paper) : ConcState :=
  ⟨s0, 0, 0, [], q.map WPhase.toCheck⟩

/-- Worker iterations still capable of merging key `k`. -/
def pendingFor (k : String) : WPhase → Bool
  | WPhase.toCheck p => urlKey p == k
  | WPhase.toMerge p _ => urlKey p == k
  | WPhase.idle => false

/- ### Worker-loop lemmas -/

/-- Every dequeued record produces exactly one event (one `task_done`). -/
theorem processQueue_events_length (fetch : Paper → Option Detail) :
    ∀ (q : List Paper) (store : Store),
      (processQueue fetch q store).events.length = q.length := by
  intro q
  induction q with
  | nil => intro store; rfl
  | cons p ps ih =>
    intro store
    simp only [processQueue]
    cases hc : urlTruthy p.url && !(store.containsKey (urlKey p)) with
    | true =>
      cases hf : fetch p with
      | some d => simp [ih]
      | none => simp [ih]
    | false => simp [ih]

/-- `failed_count` grows by exactly one per failed fetch event. -/
theorem processQueue_failed_eq (fetch : Paper → Option Detail) :
    ∀ (q : List Paper) (store : Store),
      (processQueue fetch q store).failed
        = ((processQueue fetch q store).events.filter isFailure).length := by
  intro q
  induction q with
  | nil => intro store; rfl
  | cons p ps ih =>
    intro store
    simp only [processQueue]
    cases hc : urlTruthy p.url && !(store.containsKey (urlKey p)) with
    | true =>
      cases hf : fetch p with
      | some d => simp [List.filter_cons, isFailure, ih]
      | none => simp [List.filter_cons, isFailure, ih]
    | false => simp [List.filter_cons, isFailure, ih]

/-- Each queue occurrence of a url leads to at most one fetch call: nothing
is ever requeued within a run. -/
theorem processQueue_fetch_le (fetch : Paper → Option Detail) (k : String) :
    ∀ (q : List Paper) (store : Store),
      ((processQueue fetch q store).events.filter (isFetchOf k)).length
        ≤ q.countP (fun p => urlKey p == k) := by
  intro q
  induction q with
  | nil => intro store; exact Nat.le_refl 0
  | cons p ps ih =>
    intro store
    simp only [processQueue, List.countP_cons]
    cases hc : urlTruthy p.url && !(store.containsKey (urlKey p)) with
    | true =>
      cases hf : fetch p with
      | some d =>
        cases hk : urlKey p == k with
        | true => simp [List.filter_cons, isFetchOf, hk]; have := ih ((urlKey p, d) :: store); omega
        | false => simp [List.filter_cons, isFetchOf, hk]; have := ih ((urlKey p, d) :: store); omega
      | none =>
        cases hk : urlKey p == k with
        | true => simp [List.filter_cons, isFetchOf, hk]; have := ih store; omega
        | false => simp [List.filter_cons, isFetchOf, hk]; have := ih store; omega
    | false =>
      simp [List.filter_cons, isFetchOf]
      have := ih store
      omega

/-- `Store.containsKey` on a freshly merged store. -/
theorem containsKey_cons (s : Store) (u k : String) (d : Detail) :
    Store.containsKey ((u, d) :: s) k = ((u == k) || s.containsKey k) := by
  simp [Store.containsKey]

/- ### Dispatcher lemmas -/

/-- `total_papers` counts exactly the enqueued records. -/
theorem dispatch_total_eq_queue (store : Store) :
    ∀ l : List Paper, (dispatchList store l).total = (dispatchList store l).queue.length := by
  intro l
  induction l with
  | nil => rfl
  | cons p ps ih =>
    simp only [dispatchList]
    cases ht : urlTruthy p.url with
    | true =>
      cases hc : store.containsKey (urlKey p) with
      | true => simp [ih]
      | false => simp [ih]
    | false => simp [ih]

/-- The queue is a sublist of the offered records. -/
theorem dispatch_queue_sublist (store : Store) :
    ∀ l : List Paper, (dispatchList store l).queue.Sublist l := by
  intro l
  induction l with
  | nil => exact List.Sublist.refl []
  | cons p ps ih =>
    simp only [dispatchList]
    cases ht : urlTruthy p.url with
    | true =>
      cases hc : store.containsKey (urlKey p) with
      | true => exact ih.cons p
      | false => exact ih.cons₂ p
    | false => exact ih.cons p

/-- Every enqueued record has a truthy url that is absent from the store at
load time. -/
theorem dispatch_queue_mem (store : Store) :
    ∀ (l : List Paper) (p : Paper), p ∈ (dispatchList store l).queue →
      urlTruthy p.url = true ∧ store.containsKey (urlKey p) = false := by
  intro l
  induction l with
  | nil => intro p hp; cases hp
  | cons q qs ih =>
    intro p hp
    simp only [dispatchList] at hp
    cases ht : urlTruthy q.url with
    | true =>
      cases hc : store.containsKey (urlKey q) with
      | true =>
        rw [ht, hc] at hp
        simp at hp
        exact ih p hp
      | false =>
        rw [ht, hc] at hp
        simp at hp
        cases hp with
        | inl he => rw [he]; exact ⟨ht, hc⟩
        | inr hm => exact ih p hm
    | false =>
      rw [ht] at hp
      simp at hp
      exact ih p hp

/-- Counter balance at dispatch time: when every offered record has a url,
enqueued + skipped accounts for every record. -/
theorem dispatch_balance (store : Store) :
    ∀ l : List Paper, (∀ p ∈ l, urlTruthy p.url = true) →
      (dispatchList store l).queue.length + (dispatchList store l).skippedCount
        = l.length := by
  intro l
  induction l with
  | nil => intro _; rfl
  | cons p ps ih =>
    intro h
    have hp := h p (List.mem_cons_self p ps)
    have hps := fun q hq => h q (List.mem_cons_of_mem p hq)
    simp only [dispatchList, hp]
    cases hc : store.containsKey (urlKey p) with
    | true =>
      have := ih hps
      simp
      omega
    | false =>
      have := ih hps
      simp
      omega

/-- Dispatching against the empty store skips nothing and enqueues every
record that carries a url. -/
theorem dispatch_empty_store :
    ∀ l : List Paper,
      dispatchList [] l
        = ⟨l.filter (fun p => urlTruthy p.url),
           (l.filter (fun p => urlTruthy p.url)).length, 0⟩ := by
  intro l
  induction l with
  | nil => rfl
  | cons p ps ih =>
    simp only [dispatchList, List.filter_cons]
    cases ht : urlTruthy p.url with
    | true =>
      have hc : Store.containsKey [] (urlKey p) = false := rfl
      simp [hc, ih]
    | false => simp [ih]

/-- When every offered url is already in the store, nothing is enqueued and
every record with a url is skipped. -/
theorem dispatch_all_contained (store : Store) :
    ∀ l : List Paper,
      (∀ p ∈ l, urlTruthy p.url = true → store.containsKey (urlKey p) = true) →
      dispatchList store l = ⟨[], 0, (l.filter (fun p => urlTruthy p.url)).length⟩ := by
  intro l
  induction l with
  | nil => intro _; rfl
  | cons p ps ih =>
    intro h
    have hps := fun q hq => h q (List.mem_cons_of_mem p hq)
    simp only [dispatchList, List.filter_cons]
    cases ht : urlTruthy p.url with
    | true =>
      have hc := h p (List.mem_cons_self p ps) ht
      simp [hc, ih hps]
    | false => simp [ih hps]

/-- Processing a queue of pairwise-distinct urls, all absent from the store,
settles every record as processed or failed. -/
theorem processQueue_counts (fetch : Paper → Option Detail) :
    ∀ (q : List Paper) (store : Store),
      (∀ p ∈ q, urlTruthy p.url = true) →
      (∀ p ∈ q, store.containsKey (urlKey p) = false) →
      (q.map urlKey).Nodup →
      (processQueue fetch q store).processed + (processQueue fetch q store).failed
        = q.length := by
  intro q
  induction q with
  | nil => intro store _ _ _; rfl
  | cons p ps ih =>
    intro store ht ha hn
    have htp := ht p (List.mem_cons_self p ps)
    have hap := ha p (List.mem_cons_self p ps)
    have hc : (urlTruthy p.url && !(store.containsKey (urlKey p))) = true := by
      rw [htp, hap]; rfl
    simp only [processQueue, hc, if_true]
    have hts := fun q hq => ht q (List.mem_cons_of_mem p hq)
    have hnodup := hn
    rw [List.map_cons, List.nodup_cons] at hnodup
    cases hf : fetch p with
    | some d =>
      have has : ∀ r ∈ ps, Store.containsKey ((urlKey p, d) :: store) (urlKey r) = false := by
        intro r hr
        rw [containsKey_cons]
        have h1 : (urlKey p == urlKey r) = false := by
          cases hpe : urlKey p == urlKey r with
          | false => rfl
          | true =>
            exfalso
            exact hnodup.1 (eq_of_beq hpe ▸ List.mem_map_of_mem urlKey hr)
        rw [h1, ha r (List.mem_cons_of_mem p hr)]
        rfl
      have := ih ((urlKey p, d) :: store) hts has hnodup.2
      simp only [List.length_cons]
      omega
    | none =>
      have has := fun q hq => ha q (List.mem_cons_of_mem p hq)
      have := ih store hts has hnodup.2
      simp only [List.length_cons]
      omega

/- ### Retry-loop lemmas -/

/-- Closed form of the retry loop when every attempt fails: starting at
attempt `retries` with exactly enough fuel, it returns `none`, performs
`maxRetries + 1 - retries` attempts, and sleeps
`2 ^ i + jitter i` for `i = retries + 1, ..., maxRetries`. -/
theorem fetchWithRetryGo_allFail {α : Type} (att : Nat → Option α)
    (jitter : Nat → ℚ) (maxRetries : Nat) (hatt : ∀ i, att i = none) :
    ∀ (fuel retries : Nat), retries ≤ maxRetries →
      fuel = maxRetries + 1 - retries →
      fetchWithRetryGo att jitter maxRetries fuel retries
        = (none, maxRetries + 1 - retries,
           (List.range' (retries + 1) (maxRetries - retries)).map
             (fun i => (2 : ℚ) ^ i + jitter i)) := by
  intro fuel
  induction fuel with
  | zero => intro retries hr hf; omega
  | succ f ih =>
    intro retries hr hf
    simp only [fetchWithRetryGo, hatt retries]
    by_cases hlt : maxRetries < retries + 1
    · rw [if_pos hlt]
      have h1 : maxRetries + 1 - retries = 1 := by omega
      have h2 : maxRetries - retries = 0 := by omega
      rw [h1, h2]
      rfl
    · rw [if_neg hlt]
      have h1 : retries + 1 ≤ maxRetries := by omega
      have h2 : f = maxRetries + 1 - (retries + 1) := by omega
      rw [ih (retries + 1) h1 h2]
      have h3 : maxRetries - retries = (maxRetries - (retries + 1)) + 1 := by omega
      have h4 : maxRetries + 1 - retries = (maxRetries + 1 - (retries + 1)) + 1 := by
        omega
      rw [h3, h4, List.range'_succ]
      rfl

/-- `fetch_with_retry` on a permanently failing url: result `none`,
`maxRetries + 1` attempts, sleeps `2 ^ i + jitter i` for
`i = 1, ..., maxRetries`. -/
theorem fetchWithRetry_allFail {α : Type} (att : Nat → Option α)
    (jitter : Nat → ℚ) (r : Nat) (hatt : ∀ i, att i = none) :
    fetchWithRetry att jitter r
      = (none, r + 1, (List.range' 1 r).map (fun i => (2 : ℚ) ^ i + jitter i)) := by
  have h := fetchWithRetryGo_allFail att jitter r hatt (r + 1) 0 (Nat.zero_le r)
    (by omega)
  simpa [fetchWithRetry] using h

/- ### Page-enumeration lemmas -/

/-- Enumeration never looks past the first absent page key: two manifests
that agree on pages `1..k`, where `page_k` is absent, enumerate the same
records (for any adequate fuel). -/
theorem enumPagesFrom_congr (m m' : Manifest) (k : Nat)
    (hgap : lookupPage m (pageKey k) = none)
    (hagree : ∀ i, i ≤ k → 1 ≤ i →
      lookupPage m (pageKey i) = lookupPage m' (pageKey i)) :
    ∀ (d n fuel fuel' : Nat), n + d = k → 1 ≤ n →
      k + 1 - n ≤ fuel → k + 1 - n ≤ fuel' →
      enumPagesFrom m fuel n = enumPagesFrom m' fuel' n := by
  intro d
  induction d with
  | zero =>
    intro n fuel fuel' hnk h1 hfu hfu'
    have hnkk : n = k := by omega
    subst hnkk
    cases fuel with
    | zero => omega
    | succ f =>
      cases fuel' with
      | zero => omega
      | succ f' =>
        have hgap' : lookupPage m' (pageKey n) = none := by
          rw [← hagree n (by omega) h1]
          exact hgap
        simp only [enumPagesFrom, hgap, hgap']
  | succ d ih =>
    intro n fuel fuel' hnk h1 hfu hfu'
    cases fuel with
    | zero => omega
    | succ f =>
      cases fuel' with
      | zero => omega
      | succ f' =>
        have hag : lookupPage m (pageKey n) = lookupPage m' (pageKey n) :=
          hagree n (by omega) h1
        simp only [enumPagesFrom]
        rw [← hag]
        cases hl : lookupPage m (pageKey n) with
        | none => rfl
        | some ps =>
          show ps ++ enumPagesFrom m f (n + 1) = ps ++ enumPagesFrom m' f' (n + 1)
          rw [ih (n + 1) f f' (by omega) (by omega) (by omega) (by omega)]

/-- The dispatcher sees the same records from two manifests that agree up
to an absent page key within fuel range. -/
theorem enumPapers_congr (m m' : Manifest) (k : Nat) (hk1 : 1 ≤ k)
    (hkm : k ≤ m.length + 1) (hkm' : k ≤ m'.length + 1)
    (hgap : lookupPage m (pageKey k) = none)
    (hagree : ∀ i, i ≤ k → 1 ≤ i →
      lookupPage m (pageKey i) = lookupPage m' (pageKey i)) :
    enumPapers m = enumPapers m' := by
  unfold enumPapers
  exact enumPagesFrom_congr m m' k hgap hagree (k - 1) 1 (m.length + 1)
    (m'.length + 1) (by omega) (le_refl 1) (by omega) (by omega)

/- ### Worker-pool interleaving lemmas -/

/-- Replacing the element at a present index changes `countP` by swapping
the old element's contribution for the new one's. -/
theorem countP_set {α : Type} (pr : α → Bool) :
    ∀ (ws : List α) (i : Nat) (w w' : α), ws.get? i = some w →
      (ws.set i w').countP pr + (if pr w then 1 else 0)
        = ws.countP pr + (if pr w' then 1 else 0) := by
  intro ws
  induction ws with
  | nil => intro i w w' h; cases h
  | cons a as ih =>
    intro i w w' h
    cases i with
    | zero =>
      have ha : a = w := by
        have h' : some a = some w := h
        injection h'
      subst ha
      simp only [List.set, List.countP_cons]
      omega
    | succ j =>
      have h' : as.get? j = some w := h
      have := ih j w w' h'
      simp only [List.set, List.countP_cons]
      omega

/-- One scheduler step never increases the number of merges of `k` already
logged plus the number of iterations still capable of merging `k`. -/
theorem wstep_measure (fetch : Paper → Option Detail) (k : String)
    (st : ConcState) (i : Nat) :
    (wstep fetch st i).mergeLog.count k
        + (wstep fetch st i).workers.countP (pendingFor k)
      ≤ st.mergeLog.count k + st.workers.countP (pendingFor k) := by
  unfold wstep
  cases hg : st.workers.get? i with
  | none => exact le_refl _
  | some w =>
    cases w with
    | idle => dsimp only; exact le_refl _
    | toCheck p =>
      dsimp only
      cases hc : urlTruthy p.url && !(st.store.containsKey (urlKey p)) with
      | true =>
        cases hf : fetch p with
        | some d =>
          have hs := countP_set (pendingFor k) st.workers i
            (WPhase.toCheck p) (WPhase.toMerge p d) hg
          simp [pendingFor] at hs
          simp [hf]
          omega
        | none =>
          have hs := countP_set (pendingFor k) st.workers i
            (WPhase.toCheck p) WPhase.idle hg
          simp [pendingFor] at hs
          simp [hf]
          omega
      | false =>
        have hs := countP_set (pendingFor k) st.workers i
          (WPhase.toCheck p) WPhase.idle hg
        simp [pendingFor] at hs
        simp
        omega
    | toMerge p d =>
      have hs := countP_set (pendingFor k) st.workers i
        (WPhase.toMerge p d) WPhase.idle hg
      simp [pendingFor] at hs
      simp [List.count_cons]
      omega

/-- The step measure is non-increasing along any schedule. -/
theorem execSchedule_measure (fetch : Paper → Option Detail) (k : String) :
    ∀ (sched : List Nat) (st : ConcState),
      (execSchedule fetch sched st).mergeLog.count k
          + (execSchedule fetch sched st).workers.countP (pendingFor k)
        ≤ st.mergeLog.count k + st.workers.countP (pendingFor k) := by
  intro sched
  induction sched with
  | nil => intro st; exact le_refl _
  | cons i rest ih =>
    intro st
    exact le_trans (ih (wstep fetch st i)) (wstep_measure fetch k st i)

/-- Under every schedule, a key is merged at most as often as the pool
holds records bearing it: one merge per enqueued occurrence. -/
theorem execSchedule_merge_bound (fetch : Paper → Option Detail)
    (sched : List Nat) (s0 : Store) (q : List Paper) (k : String) :
    (execSchedule fetch sched (initConc s0 q)).mergeLog.count k
      ≤ q.countP (fun p => urlKey p == k) := by
  have h := execSchedule_measure fetch k sched (initConc s0 q)
  have h0 : (initConc s0 q).mergeLog.count k = 0 := rfl
  have h1 : (initConc s0 q).workers.countP (pendingFor k)
      = q.countP (fun p => urlKey p == k) := by
    simp only [initConc, List.countP_map]
    rfl
  omega

/-- A list of papers with pairwise-distinct url keys holds each key at most
once. -/
theorem countP_key_le_one (k : String) :
    ∀ q : List Paper, (q.map urlKey).Nodup →
      q.countP (fun p => urlKey p == k) ≤ 1 := by
  intro q
  induction q with
  | nil => intro _; exact Nat.zero_le 1
  | cons p ps ih =>
    intro h
    rw [List.map_cons, List.nodup_cons] at h
    rw [List.countP_cons]
    cases hk : urlKey p == k with
    | false => simpa using ih h.2
    | true =>
      have hek : urlKey p = k := eq_of_beq hk
      have h0 : ps.countP (fun r => urlKey r == k) = 0 := by
        rw [List.countP_eq_zero]
        intro r hr hrk
        exact h.1 (hek ▸ eq_of_beq hrk ▸ List.mem_map_of_mem urlKey hr)
      simp [h0]

/- ### Claims -/

/-- C1, counterexample: the claimed balance
`skipped + processed + failed = total items offered` fails when the
manifest offers the same url twice.  Both records are enqueued (neither is
in the store at load time), the second is silently dropped by the worker
re-check after the first merge, and no counter accounts for it:
the counters sum to 1 while the manifest offered 2 records. -/
theorem c1_counterexample :
    ¬((run (some [("page_1", [⟨some "a", 0⟩, ⟨some "a", 1⟩])])
          (fun _ => some 7) ⟨FileState.absent, FileState.absent⟩ none).skipped
        + (run (some [("page_1", [⟨some "a", 0⟩, ⟨some "a", 1⟩])])
            (fun _ => some 7) ⟨FileState.absent, FileState.absent⟩ none).processed
        + (run (some [("page_1", [⟨some "a", 0⟩, ⟨some "a", 1⟩])])
            (fun _ => some 7) ⟨FileState.absent, FileState.absent⟩ none).failed
      = offeredCount [("page_1", [⟨some "a", 0⟩, ⟨some "a", 1⟩])]) := by
  decide

/-- C1, amended: for every completed run over a manifest whose enumerated
records all carry a url and whose urls are pairwise distinct,
`skipped + processed + failed` equals the number of records the manifest
offers, pre-existing keys being counted as skipped at load time. -/
theorem c1_counter_balance (m : Manifest) (fetch : Paper → Option Detail)
    (fs : FS)
    (htruthy : ∀ p ∈ enumPapers m, urlTruthy p.url = true)
    (hnodup : ((enumPapers m).map urlKey).Nodup) :
    (run (some m) fetch fs none).skipped
      + (run (some m) fetch fs none).processed
      + (run (some m) fetch fs none).failed = offeredCount m := by
  have hoff : offeredCount m = (enumPapers m).length := by
    unfold offeredCount
    rw [List.filter_eq_self.mpr htruthy]
  have hbal := dispatch_balance (loadExistingDetails fs) (enumPapers m) htruthy
  have htq := dispatch_total_eq_queue (loadExistingDetails fs) (enumPapers m)
  simp only [run]
  by_cases h0 : (dispatchList (loadExistingDetails fs) (enumPapers m)).total = 0
  · rw [if_pos h0]
    dsimp only
    rw [hoff]
    omega
  · rw [if_neg h0]
    dsimp only
    have hq := dispatch_queue_mem (loadExistingDetails fs) (enumPapers m)
    have hn : (((dispatchList (loadExistingDetails fs) (enumPapers m)).queue.map
        urlKey)).Nodup :=
      List.Nodup.sublist
        (List.Sublist.map urlKey
          (dispatch_queue_sublist (loadExistingDetails fs) (enumPapers m)))
        hnodup
    have hcnt := processQueue_counts fetch
      (dispatchList (loadExistingDetails fs) (enumPapers m)).queue
      (loadExistingDetails fs)
      (fun p hp => (hq p hp).1) (fun p hp => (hq p hp).2) hn
    rw [hoff]
    omega

/-- C1 witness: a duplicate-free manifest with two records, one failing
fetch, against an empty store. -/
theorem c1_counter_balance_witness :
    (run (some [("page_1", [⟨some "a", 0⟩, ⟨some "b", 1⟩])])
        (fun p => if p.payload = 0 then some 5 else none)
        ⟨FileState.absent, FileState.absent⟩ none).skipped
      + (run (some [("page_1", [⟨some "a", 0⟩, ⟨some "b", 1⟩])])
          (fun p => if p.payload = 0 then some 5 else none)
          ⟨FileState.absent, FileState.absent⟩ none).processed
      + (run (some [("page_1", [⟨some "a", 0⟩, ⟨some "b", 1⟩])])
          (fun p => if p.payload = 0 then some 5 else none)
          ⟨FileState.absent, FileState.absent⟩ none).failed
      = offeredCount [("page_1", [⟨some "a", 0⟩, ⟨some "b", 1⟩])] :=
  c1_counter_balance [("page_1", [⟨some "a", 0⟩, ⟨some "b", 1⟩])]
    (fun p => if p.payload = 0 then some 5 else none)
    ⟨FileState.absent, FileState.absent⟩ (by decide) (by decide)

/-- C2, counterexample: the inter-attempt delays are not bounded above by
any fixed ceiling — the code sleeps `2 ** retries + uniform(0, 1)` with no
cap, so for every candidate ceiling some configuration of `maxRetries`
produces a longer delay. -/
theorem c2_counterexample :
    ¬ ∃ C : ℚ, ∀ r : Nat,
        ∀ s ∈ (fetchWithRetry (fun _ => (none : Option Detail))
            (fun _ => 0) r).2.2, s ≤ C := by
  rintro ⟨C, hC⟩
  obtain ⟨n, hn⟩ := exists_nat_gt C
  have hmem : ((2 : ℚ) ^ (n + 1) + 0)
      ∈ (fetchWithRetry (fun _ => (none : Option Detail))
          (fun _ => 0) (n + 1)).2.2 := by
    rw [fetchWithRetry_allFail (fun _ => none) (fun _ => 0) (n + 1) (fun _ => rfl)]
    refine List.mem_map.mpr ⟨n + 1, ?_, rfl⟩
    rw [List.mem_range'_1]
    omega
  have hle := hC (n + 1) _ hmem
  have hlt : (n : ℚ) < 2 ^ (n + 1) := by
    have h1 : (n : ℚ) < ((2 ^ (n + 1) : ℕ) : ℚ) := by
      exact_mod_cast Nat.lt_of_lt_of_le (Nat.lt_two_pow n)
        (Nat.pow_le_pow_right (by omega) (by omega))
    simpa using h1
  linarith

/-- C2, amended: on a permanently failing url with `maxRetries = r` and
jitter drawn from `[0, 1)`, `fetch_with_retry` performs exactly `r + 1`
attempts, returns the failure signal, and the inter-attempt delays are
non-decreasing; each delay is below `2 ^ r + 1` (a bound that grows with
`r` — the code applies no fixed cap). -/
theorem c2_backoff_bound (att : Nat → Option Detail) (jitter : Nat → ℚ)
    (r : Nat) (hatt : ∀ i, att i = none)
    (hjit : ∀ i, 0 ≤ jitter i ∧ jitter i < 1) :
    (fetchWithRetry att jitter r).1 = none
    ∧ (fetchWithRetry att jitter r).2.1 = r + 1
    ∧ List.Pairwise (· ≤ ·) (fetchWithRetry att jitter r).2.2
    ∧ ∀ s ∈ (fetchWithRetry att jitter r).2.2, s < 2 ^ r + 1 := by
  rw [fetchWithRetry_allFail att jitter r hatt]
  refine ⟨rfl, rfl, ?_, ?_⟩
  · refine List.Pairwise.map _ ?_ (List.pairwise_lt_range' 1 r)
    intro a b hab
    have h1 : (2 : ℚ) ^ a + jitter a < 2 ^ a + 1 := by
      have := (hjit a).2
      linarith
    have h2 : (2 : ℚ) ^ a + 1 ≤ 2 ^ (a + 1) := by
      have hpa : (1 : ℚ) ≤ 2 ^ a := one_le_pow₀ (by norm_num)
      have hd : (2 : ℚ) ^ (a + 1) = 2 ^ a + 2 ^ a := by ring
      linarith
    have h3 : (2 : ℚ) ^ (a + 1) ≤ 2 ^ b := by
      apply pow_le_pow_right₀ (by norm_num)
      omega
    have h4 : (0 : ℚ) ≤ jitter b := (hjit b).1
    linarith
  · intro s hs
    obtain ⟨i, hi, rfl⟩ := List.mem_map.mp hs
    rw [List.mem_range'_1] at hi
    have h1 : (2 : ℚ) ^ i ≤ 2 ^ r := by
      apply pow_le_pow_right₀ (by norm_num)
      omega
    have h2 := (hjit i).2
    linarith

/-- C2 witness: `maxRetries = 2`, jitter constantly `1/2`. -/
theorem c2_backoff_bound_witness :
    (fetchWithRetry (fun _ => (none : Option Detail)) (fun _ => 1/2) 2).1 = none
    ∧ (fetchWithRetry (fun _ => (none : Option Detail)) (fun _ => 1/2) 2).2.1
        = 2 + 1
    ∧ List.Pairwise (· ≤ ·)
        (fetchWithRetry (fun _ => (none : Option Detail)) (fun _ => 1/2) 2).2.2
    ∧ ∀ s ∈ (fetchWithRetry (fun _ => (none : Option Detail))
        (fun _ => 1/2) 2).2.2, s < 2 ^ 2 + 1 :=
  c2_backoff_bound (fun _ => none) (fun _ => 1/2) 2 (fun _ => rfl)
    (fun _ => ⟨by norm_num, by norm_num⟩)

/-- C3, counterexample: `save_details` rewrites the durable results file in
place (`open(output_file, "w")` truncates before `json.dump` finishes), so
there is an observable point at which the durable file holds a partially
written document. -/
theorem c3_counterexample :
    ∃ s ∈ saveDetailsStates ⟨FileState.good [("a", 1)], FileState.absent⟩
        [("a", 1), ("b", 2)], s.out = FileState.corrupt := by
  decide

/-- C3, amended: every persist of a previously existing results file first
retains a backup copy of the previous version, then rewrites the durable
file in place — not atomically: mid-write the durable file may hold a
partial document, while the previous version stays available in the backup
file from the backup step onward, and the completed save leaves the full
snapshot in the durable file. -/
theorem c3_backup_then_rewrite (fs : FS) (snapshot : Store)
    (h : fs.out ≠ FileState.absent) :
    (∀ st ∈ (saveDetailsStates fs snapshot).drop 1, st.bak = fs.out)
    ∧ (saveDetailsStates fs snapshot).getLast? = some (saveDetails fs snapshot)
    ∧ saveDetails fs snapshot = ⟨FileState.good snapshot, fs.out⟩ := by
  obtain ⟨o, b⟩ := fs
  cases o with
  | absent => exact absurd rfl h
  | good s =>
    refine ⟨?_, rfl, rfl⟩
    intro st hst
    simp [saveDetailsStates] at hst
    rcases hst with rfl | rfl | rfl <;> rfl
  | corrupt =>
    refine ⟨?_, rfl, rfl⟩
    intro st hst
    simp [saveDetailsStates] at hst
    rcases hst with rfl | rfl | rfl <;> rfl

/-- C3 witness: saving a two-entry snapshot over an existing one-entry
results file. -/
theorem c3_backup_then_rewrite_witness :
    (∀ st ∈ (saveDetailsStates ⟨FileState.good [("a", 1)], FileState.absent⟩
        [("a", 1), ("b", 2)]).drop 1,
      st.bak = FS.out ⟨FileState.good [("a", 1)], FileState.absent⟩)
    ∧ (saveDetailsStates ⟨FileState.good [("a", 1)], FileState.absent⟩
        [("a", 1), ("b", 2)]).getLast?
        = some (saveDetails ⟨FileState.good [("a", 1)], FileState.absent⟩
            [("a", 1), ("b", 2)])
    ∧ saveDetails ⟨FileState.good [("a", 1)], FileState.absent⟩
        [("a", 1), ("b", 2)]
        = ⟨FileState.good [("a", 1), ("b", 2)],
           FS.out ⟨FileState.good [("a", 1)], FileState.absent⟩⟩ :=
  c3_backup_then_rewrite ⟨FileState.good [("a", 1)], FileState.absent⟩
    [("a", 1), ("b", 2)] (by decide)

/-- C4, counterexample: the claimed at-most-once merge fails in the
concurrent worker pool.  The dispatcher builds the queue with the url "a"
twice (both records are absent from the empty store at load time); two
workers each dequeue one copy, and under the schedule check-A, check-B,
merge-A, merge-B both pass the membership re-check — which the code runs
before the fetch and without holding the lock — before either merges, so
the key "a" is merged twice in one run.  There is no re-check at merge
time. -/
theorem c4_counterexample :
    (execSchedule (fun _ => some 7) [0, 1, 0, 1]
        (initConc []
          (dispatchList []
            (enumPapers
              [("page_1", [⟨some "a", 0⟩, ⟨some "a", 1⟩])])).queue)).mergeLog.count
      "a" = 2 := by
  decide

/-- C4, amended: the dispatcher enqueues only keys absent from the store at
load time, and under every worker interleaving a key is merged at most once
per enqueued occurrence; hence when the enumerated urls are pairwise
distinct, every key is merged at most once per run.  For a duplicated
enqueued key the unlocked pre-fetch re-check gives no protection (see the
counterexample). -/
theorem c4_merge_guarantee (m : Manifest) (store0 : Store)
    (fetch : Paper → Option Detail) (sched : List Nat) :
    (∀ p, p ∈ (dispatchList store0 (enumPapers m)).queue →
        store0.containsKey (urlKey p) = false)
    ∧ (∀ (q : List Paper) (k : String),
        (execSchedule fetch sched (initConc store0 q)).mergeLog.count k
          ≤ q.countP (fun p => urlKey p == k))
    ∧ (((enumPapers m).map urlKey).Nodup → ∀ k : String,
        (execSchedule fetch sched
            (initConc store0
              (dispatchList store0 (enumPapers m)).queue)).mergeLog.count k
          ≤ 1) := by
  refine ⟨?_, ?_, ?_⟩
  · intro p hp
    exact (dispatch_queue_mem store0 (enumPapers m) p hp).2
  · intro q k
    exact execSchedule_merge_bound fetch sched store0 q k
  · intro hnodup k
    have hq : ((dispatchList store0 (enumPapers m)).queue.map urlKey).Nodup :=
      List.Nodup.sublist
        (List.Sublist.map urlKey (dispatch_queue_sublist store0 (enumPapers m)))
        hnodup
    exact le_trans
      (execSchedule_merge_bound fetch sched store0
        (dispatchList store0 (enumPapers m)).queue k)
      (countP_key_le_one k (dispatchList store0 (enumPapers m)).queue hq)

/-- C4 witness: duplicate-free manifest, same double-interleaved schedule
as the counterexample — the key is still merged at most once. -/
theorem c4_merge_guarantee_witness :
    (execSchedule (fun _ => some 7) [0, 1, 0, 1]
        (initConc []
          (dispatchList []
            (enumPapers
              [("page_1", [⟨some "a", 0⟩, ⟨some "b", 1⟩])])).queue)).mergeLog.count
      "a" ≤ 1 :=
  (c4_merge_guarantee [("page_1", [⟨some "a", 0⟩, ⟨some "b", 1⟩])] []
      (fun _ => some 7) [0, 1, 0, 1]).2.2 (by decide) "a"

/-- C5: running against a store that already contains every manifest key
performs zero fetch attempts, starts no worker, and leaves the persisted
results file byte-identical (the run exits before any save). -/
theorem c5_idempotence (m : Manifest) (fetch : Paper → Option Detail)
    (fs : FS) (interrupt : Option Nat)
    (hall : ∀ p ∈ enumPapers m, urlTruthy p.url = true →
        (loadExistingDetails fs).containsKey (urlKey p) = true) :
    (run (some m) fetch fs interrupt).fs = fs
    ∧ (run (some m) fetch fs interrupt).events = []
    ∧ (run (some m) fetch fs interrupt).workersStarted = false := by
  have hd := dispatch_all_contained (loadExistingDetails fs) (enumPapers m) hall
  simp only [run, hd]
  exact ⟨rfl, rfl, rfl⟩

/-- C5 witness: a one-record manifest whose url is already persisted. -/
theorem c5_idempotence_witness :
    (run (some [("page_1", [⟨some "a", 0⟩])]) (fun _ => some 9)
        ⟨FileState.good [("a", 5)], FileState.absent⟩ none).fs
      = ⟨FileState.good [("a", 5)], FileState.absent⟩
    ∧ (run (some [("page_1", [⟨some "a", 0⟩])]) (fun _ => some 9)
        ⟨FileState.good [("a", 5)], FileState.absent⟩ none).events = []
    ∧ (run (some [("page_1", [⟨some "a", 0⟩])]) (fun _ => some 9)
        ⟨FileState.good [("a", 5)], FileState.absent⟩ none).workersStarted
        = false :=
  c5_idempotence [("page_1", [⟨some "a", 0⟩])] (fun _ => some 9)
    ⟨FileState.good [("a", 5)], FileState.absent⟩ none (by decide)

/-- C6: an unreadable/unparseable manifest aborts the run before any worker
starts, with no fetch and the results file untouched — and it is the only
fatal condition: with a parsed manifest, whatever the fetch outcomes, every
enqueued record is processed to completion and the final save happens. -/
theorem c6_manifest_only_fatal :
    (∀ (fetch : Paper → Option Detail) (fs : FS) (interrupt : Option Nat),
        run none fetch fs interrupt
          = ⟨loadExistingDetails fs, 0, 0, 0, 0, [], fs, false⟩)
    ∧ ∀ (m : Manifest) (fetch : Paper → Option Detail) (fs : FS),
        (run (some m) fetch fs none).workersStarted = true →
        (run (some m) fetch fs none).events.length
            = (dispatchList (loadExistingDetails fs) (enumPapers m)).queue.length
        ∧ (run (some m) fetch fs none).fs.out
            = FileState.good (run (some m) fetch fs none).store := by
  constructor
  · intro fetch fs interrupt
    rfl
  · intro m fetch fs hw
    simp only [run] at hw ⊢
    by_cases h0 : (dispatchList (loadExistingDetails fs) (enumPapers m)).total = 0
    · rw [if_pos h0] at hw
      exact Bool.noConfusion hw
    · rw [if_neg h0]
      dsimp only
      exact ⟨processQueue_events_length fetch _ _, rfl⟩

/-- C6 witness: a one-record manifest with an always-failing fetcher: the
run still completes its queue and saves. -/
theorem c6_manifest_only_fatal_witness :
    (run (some [("page_1", [(⟨some "a", 0⟩ : Paper)])]) (fun _ => none)
        ⟨FileState.absent, FileState.absent⟩ none).events.length
      = (dispatchList
          (loadExistingDetails ⟨FileState.absent, FileState.absent⟩)
          (enumPapers [("page_1", [(⟨some "a", 0⟩ : Paper)])])).queue.length
    ∧ (run (some [("page_1", [(⟨some "a", 0⟩ : Paper)])]) (fun _ => none)
        ⟨FileState.absent, FileState.absent⟩ none).fs.out
      = FileState.good
          (run (some [("page_1", [(⟨some "a", 0⟩ : Paper)])]) (fun _ => none)
            ⟨FileState.absent, FileState.absent⟩ none).store :=
  c6_manifest_only_fatal.2 [("page_1", [⟨some "a", 0⟩])] (fun _ => none)
    ⟨FileState.absent, FileState.absent⟩ (by decide)

/-- C7: after exhausting its retries `fetch_with_retry` returns the failure
signal `none` to the caller; the worker accounts one event (one `task_done`)
per dequeued record, bumps `failed_count` exactly once per failed fetch,
and never requeues — each url is fetched at most as often as it was
enqueued. -/
theorem c7_failure_isolation :
    (∀ (att : Nat → Option Detail) (jitter : Nat → ℚ) (r : Nat),
        (∀ i, att i = none) → (fetchWithRetry att jitter r).1 = none)
    ∧ ∀ (fetch : Paper → Option Detail) (q : List Paper) (store : Store),
        (processQueue fetch q store).events.length = q.length
        ∧ (processQueue fetch q store).failed
            = ((processQueue fetch q store).events.filter isFailure).length
        ∧ ∀ k, ((processQueue fetch q store).events.filter
            (isFetchOf k)).length ≤ q.countP (fun p => urlKey p == k) := by
  constructor
  · intro att jitter r hatt
    rw [fetchWithRetry_allFail att jitter r hatt]
  · intro fetch q store
    exact ⟨processQueue_events_length fetch q store,
           processQueue_failed_eq fetch q store,
           fun k => processQueue_fetch_le fetch k q store⟩

/-- C7 witness: two retries, permanently failing attempts. -/
theorem c7_failure_isolation_witness :
    (fetchWithRetry (fun _ => (none : Option Detail)) (fun _ => 0) 2).1
      = none :=
  c7_failure_isolation.1 (fun _ => none) (fun _ => 0) 2 (fun _ => rfl)

/-- C8: whenever the run terminates after starting workers — by draining
the queue (`interrupt = none`) or by an interruption after any number of
items — a final persist of the current store is performed before exit. -/
theorem c8_final_persist (m : Manifest) (fetch : Paper → Option Detail)
    (fs : FS) (interrupt : Option Nat)
    (hw : (run (some m) fetch fs interrupt).workersStarted = true) :
    (run (some m) fetch fs interrupt).fs
      = saveDetails fs (run (some m) fetch fs interrupt).store
    ∧ (run (some m) fetch fs interrupt).fs.out
      = FileState.good (run (some m) fetch fs interrupt).store := by
  simp only [run] at hw ⊢
  by_cases h0 : (dispatchList (loadExistingDetails fs) (enumPapers m)).total = 0
  · rw [if_pos h0] at hw
    exact Bool.noConfusion hw
  · rw [if_neg h0]
    exact ⟨rfl, rfl⟩

/-- C8 witness: a run interrupted before its first item still saves. -/
theorem c8_final_persist_witness :
    (run (some [("page_1", [(⟨some "a", 0⟩ : Paper)])]) (fun _ => some 3)
        ⟨FileState.absent, FileState.absent⟩ (some 0)).fs
      = saveDetails ⟨FileState.absent, FileState.absent⟩
          (run (some [("page_1", [(⟨some "a", 0⟩ : Paper)])]) (fun _ => some 3)
            ⟨FileState.absent, FileState.absent⟩ (some 0)).store
    ∧ (run (some [("page_1", [(⟨some "a", 0⟩ : Paper)])]) (fun _ => some 3)
        ⟨FileState.absent, FileState.absent⟩ (some 0)).fs.out
      = FileState.good
          (run (some [("page_1", [(⟨some "a", 0⟩ : Paper)])]) (fun _ => some 3)
            ⟨FileState.absent, FileState.absent⟩ (some 0)).store :=
  c8_final_persist [("page_1", [⟨some "a", 0⟩])] (fun _ => some 3)
    ⟨FileState.absent, FileState.absent⟩ (some 0) (by decide)

/-- C9: page enumeration runs strictly as `page_1, page_2, ...` and stops
at the first absent page key, so pages beyond the gap never influence the
run: two manifests agreeing on pages `1..k`, with `page_k` absent, yield
identical runs — records in pages after the gap are never enqueued, never
skipped, and never counted. -/
theorem c9_page_gap (m m' : Manifest) (fetch : Paper → Option Detail)
    (fs : FS) (interrupt : Option Nat) (k : Nat) (hk1 : 1 ≤ k)
    (hkm : k ≤ m.length + 1) (hkm' : k ≤ m'.length + 1)
    (hgap : lookupPage m (pageKey k) = none)
    (hagree : ∀ i, i ≤ k → 1 ≤ i →
      lookupPage m (pageKey i) = lookupPage m' (pageKey i)) :
    run (some m) fetch fs interrupt = run (some m') fetch fs interrupt := by
  have he := enumPapers_congr m m' k hk1 hkm hkm' hgap hagree
  simp only [run, he]

/-- C9 witness: a manifest with `page_1` and `page_3` (gap at `page_2`)
runs identically to the manifest holding only `page_1`. -/
theorem c9_page_gap_witness :
    run (some [("page_1", [(⟨some "a", 0⟩ : Paper)]),
               ("page_3", [⟨some "b", 1⟩])])
        (fun _ => some 3) ⟨FileState.absent, FileState.absent⟩ none
      = run (some [("page_1", [(⟨some "a", 0⟩ : Paper)])]) (fun _ => some 3)
          ⟨FileState.absent, FileState.absent⟩ none :=
  c9_page_gap [("page_1", [⟨some "a", 0⟩]), ("page_3", [⟨some "b", 1⟩])]
    [("page_1", [⟨some "a", 0⟩])] (fun _ => some 3)
    ⟨FileState.absent, FileState.absent⟩ none 2 (by decide) (by decide)
    (by decide) (by decide) (by decide)

/-- C10: a present but unparseable results file does not abort the run: the
in-memory store is reset to empty, nothing is skipped, and every enumerated
record carrying a url is re-enqueued. -/
theorem c10_corrupt_results_reset (m : Manifest) (fs : FS)
    (hc : fs.out = FileState.corrupt) :
    loadExistingDetails fs = []
    ∧ (dispatchList (loadExistingDetails fs) (enumPapers m)).skippedCount = 0
    ∧ (dispatchList (loadExistingDetails fs) (enumPapers m)).queue
        = (enumPapers m).filter (fun p => urlTruthy p.url) := by
  have h0 : loadExistingDetails fs = [] := by
    unfold loadExistingDetails
    rw [hc]
  refine ⟨h0, ?_, ?_⟩
  · rw [h0, dispatch_empty_store]
  · rw [h0, dispatch_empty_store]

/-- C10 witness: a corrupt results file with a two-record manifest. -/
theorem c10_corrupt_results_reset_witness :
    loadExistingDetails ⟨FileState.corrupt, FileState.absent⟩ = []
    ∧ (dispatchList (loadExistingDetails ⟨FileState.corrupt, FileState.absent⟩)
        (enumPapers [("page_1", [⟨some "a", 0⟩, ⟨some "b", 1⟩])])).skippedCount
        = 0
    ∧ (dispatchList (loadExistingDetails ⟨FileState.corrupt, FileState.absent⟩)
        (enumPapers [("page_1", [⟨some "a", 0⟩, ⟨some "b", 1⟩])])).queue
        = (enumPapers [("page_1", [⟨some "a", 0⟩, ⟨some "b", 1⟩])]).filter
            (fun p => urlTruthy p.url) :=
  c10_corrupt_results_reset [("page_1", [⟨some "a", 0⟩, ⟨some "b", 1⟩])]
    ⟨FileState.corrupt, FileState.absent⟩ (by decide)

end PaperPipeline
